import Mathlib

/-!
Verification of the CVRP local-search orchestration layer
(`rl4co/envs/routing/cvrp/local_search.py`).

Tours and subroutes are modelled as lists of integers (numpy int64 arrays in
the source); the depot marker is the value `0`.  Fallible numpy operations
(slice assignment with mismatched shapes, `np.max` of an empty selection)
are modelled with `Option`.  Demands and capacities are rationals.
-/

namespace LocalSearch

/-- The contiguous slice `l[i:j]` of a list, numpy/python style. -/
def seg (l : List ℤ) (i j : ℕ) : List ℤ := (l.drop i).take (j - i)

/-- `np.where(path == 0)[0]`: the positions of the depot marker in a tour. -/
def zeroPositions (path : List ℤ) : List ℕ :=
  (List.range path.length).filter (fun k => path.getD k 1 == 0)

/-- `get_subroutes(path, end_with_zero)`: for each consecutive pair `(i, j)` of
depot positions with `j - i > 1`, emit the slice `path[i:j+1]` (or `path[i:j]`
when `end_with_zero` is false). -/
def get_subroutes (path : List ℤ) (end_with_zero : Bool := true) : List (List ℤ) :=
  let x := zeroPositions path
  ((x.zip x.tail).filter (fun p => 1 < p.2 - p.1)).map
    (fun p => seg path p.1 (if end_with_zero then p.2 + 1 else p.2))

/-- Numpy slice assignment `route[i:i+len(r)] = r`; `none` models the
`ValueError` raised when the segment does not fit. -/
def writeAt (route : List ℤ) (i : ℕ) (r : List ℤ) : Option (List ℤ) :=
  if i + r.length ≤ route.length then
    some (route.take i ++ r ++ route.drop (i + r.length))
  else none

/-- The loop of `merge_subroutes`: subroutes of length ≤ 2 are skipped, longer
ones are written (without their trailing depot) at the advancing cursor. -/
def mergeGo : List (List ℤ) → List ℤ → ℕ → Option (List ℤ)
  | [], route, _ => some route
  | r :: rs, route, i =>
    if 2 < r.length then
      match writeAt route i r.dropLast with
      | some route2 => mergeGo rs route2 (i + r.dropLast.length)
      | none => none
    else mergeGo rs route i

/-- `merge_subroutes(subroutes, length)`: write the non-vestigial subroutes
into a zero-filled sequence of the given length. -/
def merge_subroutes (subroutes : List (List ℤ)) (length : ℕ) : Option (List ℤ) :=
  mergeGo subroutes (List.replicate length 0) 0

/-- The column indices of the non-zero entries of one row. -/
def rowNonzeroCols (row : List ℤ) : List ℕ :=
  (List.range row.length).filter (fun j => row.getD j 0 != 0)

/-- `np.where(m != 0)[1]`: the column indices of all non-zero entries. -/
def nonzeroColIndices (m : List (List ℤ)) : List ℕ :=
  (m.map rowNonzeroCols).flatten

/-- The final trim step of `local_search`:
`max_pos = np.max(np.where(m != 0)[1]); m[:, 1:max_pos+1]`.
`none` models the exception `np.max` raises on an empty selection. -/
def trim (m : List (List ℤ)) : Option (List (List ℤ)) :=
  if (nonzeroColIndices m).isEmpty then none
  else some (m.map (fun row => (row.drop 1).take ((nonzeroColIndices m).foldl max 0)))

/-- The literal label prefix written before each route number. -/
def routeLabel : String := "Route #"

/-- The separator between the route number and the node tokens. -/
def colonSpace : String := ": "

/-- The separator between node tokens. -/
def sepSpace : String := " "

/-- `write_routes`: one line per subroute, the label, the 1-indexed route
number and the space-joined positive entries of the subroute.  The file is
modelled as the list of its lines; the counter argument carries the next
route number. -/
def write_routes_go (k : ℕ) : List (List ℤ) → List String
  | [] => []
  | r :: rs =>
    (routeLabel ++ toString k ++ colonSpace ++
      String.intercalate sepSpace ((r.filter (fun x => 0 < x)).map toString))
      :: write_routes_go (k + 1) rs

/-- `write_routes(routes, filepath)` as a pure function from the route list to
the lines written. -/
def write_routes (routes : List (List ℤ)) : List String :=
  write_routes_go 1 routes

/-! ### Basic lemmas about slices and depot positions -/

theorem seg_self (l : List ℤ) (i : ℕ) : seg l i i = [] := by
  simp [seg]

theorem seg_length (l : List ℤ) {i j : ℕ} (hij : i ≤ j) (hj : j ≤ l.length) :
    (seg l i j).length = j - i := by
  simp only [seg, List.length_take, List.length_drop]
  omega

theorem seg_append (l : List ℤ) {i j k : ℕ} (hij : i ≤ j) (hjk : j ≤ k) :
    seg l i j ++ seg l j k = seg l i k := by
  unfold seg
  have hd : l.drop j = (l.drop i).drop (j - i) := by
    rw [List.drop_drop]
    congr 1
    omega
  rw [hd, ← List.take_add]
  congr 1
  omega

theorem seg_singleton (l : List ℤ) {i : ℕ} (hi : i < l.length) :
    seg l i (i + 1) = [l.getD i 1] := by
  have h1 : i + 1 - i = 1 := by omega
  simp only [seg, h1, List.drop_eq_getElem_cons hi, List.take_succ_cons, List.take_zero,
    List.getD_eq_getElem l 1 hi]

theorem dropLast_seg (l : List ℤ) {i j : ℕ} (hij : i ≤ j) (hj : j < l.length) :
    (seg l i (j + 1)).dropLast = seg l i j := by
  unfold seg
  rw [List.dropLast_eq_take, List.length_take, List.take_take, List.length_drop]
  congr 1
  omega

theorem seg_zero (l : List ℤ) (j : ℕ) : seg l 0 j = l.take j := by
  simp [seg]

theorem mem_zeroPositions {path : List ℤ} {k : ℕ} :
    k ∈ zeroPositions path ↔ k < path.length ∧ path.getD k 1 = 0 := by
  simp [zeroPositions, List.mem_filter, List.mem_range]

theorem zeroPositions_pairwise (path : List ℤ) :
    (zeroPositions path).Pairwise (· < ·) := by
  exact List.Pairwise.sublist (List.filter_sublist _) (List.pairwise_lt_range _)

theorem zeroPositions_cons (a : ℤ) (t : List ℤ) :
    zeroPositions (a :: t) =
      (if a = 0 then [0] else []) ++ (zeroPositions t).map Nat.succ := by
  unfold zeroPositions
  rw [List.length_cons, List.range_succ_eq_map, List.filter_cons, List.filter_map]
  have hf : ((fun k => (a :: t).getD k 1 == 0) ∘ Nat.succ) =
      (fun k => t.getD k 1 == 0) := by
    funext k
    simp [Function.comp, List.getD_cons_succ]
  rw [hf]
  by_cases ha : a = 0 <;> simp [ha]

/-! ### Ordered position lists -/

theorem le_getLastD (rest : List ℕ) : ∀ (j : ℕ),
    (j :: rest).Pairwise (· < ·) → j ≤ rest.getLastD j := by
  induction rest with
  | nil => intro j _; simp
  | cons b t ih =>
    intro j hp
    rw [List.getLastD_cons]
    have hjb : j < b := (List.pairwise_cons.mp hp).1 b (List.mem_cons_self b t)
    exact le_trans (le_of_lt hjb) (ih b hp.of_cons)

theorem getLastD_le (rest : List ℕ) : ∀ (j m : ℕ),
    (∀ k ∈ j :: rest, k ≤ m) → rest.getLastD j ≤ m := by
  induction rest with
  | nil => intro j m h; exact h j (List.mem_cons_self _ _)
  | cons b t ih =>
    intro j m h
    rw [List.getLastD_cons]
    exact ih b m (fun k hk => h k (List.mem_cons_of_mem _ hk))

theorem getLastD_mem (rest : List ℕ) : ∀ (j : ℕ), rest.getLastD j ∈ j :: rest := by
  induction rest with
  | nil => intro j; simp
  | cons b t ih =>
    intro j
    rw [List.getLastD_cons]
    exact List.mem_cons_of_mem _ (ih b)

/-! ### The telescoping identity behind decompose/merge round-trips -/

/-- For a sorted list of depot positions, the concatenation of the non-depot
entries of the emitted slices (trailing depot stripped) is exactly the
non-depot content of the tour between the first and the last position. -/
theorem flatten_filter_pairs (path : List ℤ) (zs : List ℕ) : ∀ (i : ℕ),
    (i :: zs).Pairwise (· < ·) →
    (∀ k ∈ i :: zs, k < path.length ∧ path.getD k 1 = 0) →
    ((((i :: zs).zip zs).filter (fun p => 1 < p.2 - p.1)).map
        (fun p => ((seg path p.1 (p.2 + 1)).dropLast).filter (fun x => x != 0))).flatten
      = (seg path i (zs.getLastD i)).filter (fun x => x != 0) := by
  induction zs with
  | nil =>
    intro i _ _
    simp [List.zip_nil_right, seg_self]
  | cons j rest ih =>
    intro i hp hmem
    have hij : i < j := (List.pairwise_cons.mp hp).1 j (List.mem_cons_self j rest)
    have hjlen : j < path.length := (hmem j (List.mem_cons_of_mem _ (List.mem_cons_self _ _))).1
    have hi0 : path.getD i 1 = 0 := (hmem i (List.mem_cons_self _ _)).2
    have hp2 : (j :: rest).Pairwise (· < ·) := hp.of_cons
    have hmem2 : ∀ k ∈ j :: rest, k < path.length ∧ path.getD k 1 = 0 :=
      fun k hk => hmem k (List.mem_cons_of_mem _ hk)
    have hjL : j ≤ rest.getLastD j := le_getLastD rest j hp2
    have htail := ih j hp2 hmem2
    rw [List.getLastD_cons]
    rw [List.zip_cons_cons, List.filter_cons]
    by_cases hgap : 1 < j - i
    · rw [if_pos (by simpa using hgap), List.map_cons, List.flatten_cons, htail]
      have hhead : ((seg path i (j + 1)).dropLast).filter (fun x => x != 0)
          = (seg path i j).filter (fun x => x != 0) := by
        rw [dropLast_seg path (le_of_lt hij) hjlen]
      rw [hhead, ← List.filter_append, seg_append path (le_of_lt hij) hjL]
    · rw [if_neg (by simpa using hgap), htail]
      have hj1 : j = i + 1 := by omega
      have hseg : (seg path i j).filter (fun x => x != 0) = [] := by
        subst hj1
        rw [seg_singleton path (lt_trans hij hjlen), hi0]
        simp
      rw [← seg_append path (le_of_lt hij) hjL, List.filter_append, hseg, List.nil_append]

/-! ### Characterization of merge -/

theorem mergeGo_eq : ∀ (subs : List (List ℤ)) (route : List ℤ) (i : ℕ),
    (∀ r ∈ subs, 2 < r.length) →
    i + ((subs.map (fun r => r.length - 1)).sum) ≤ route.length →
    mergeGo subs route i =
      some (route.take i ++ (subs.map List.dropLast).flatten
        ++ route.drop (i + (subs.map (fun r => r.length - 1)).sum)) := by
  intro subs
  induction subs with
  | nil =>
    intro route i _ _
    simp [mergeGo, List.take_append_drop]
  | cons r rs ih =>
    intro route i h3 hbound
    have hr3 : 2 < r.length := h3 r (List.mem_cons_self _ _)
    have hdl : r.dropLast.length = r.length - 1 := List.length_dropLast r
    have hsum : ((r :: rs).map (fun r => r.length - 1)).sum
        = (r.length - 1) + ((rs.map (fun r => r.length - 1)).sum) := by
      simp
    have hfit : i + r.dropLast.length ≤ route.length := by
      rw [hdl]; omega
    unfold mergeGo
    rw [if_pos hr3]
    set route2 := route.take i ++ r.dropLast ++ route.drop (i + r.dropLast.length) with hroute2
    have hitake : (route.take i).length = i := by
      rw [List.length_take]; omega
    have hpre : (route.take i ++ r.dropLast).length = i + r.dropLast.length := by
      rw [List.length_append, hitake]
    have hlen2 : route2.length = route.length := by
      rw [hroute2, List.length_append, List.length_append, hitake, List.length_drop]
      rw [hdl]; omega
    have hbound2 : (i + r.dropLast.length) + ((rs.map (fun r => r.length - 1)).sum)
        ≤ route2.length := by
      rw [hlen2, hdl]; omega
    have hwrite : writeAt route i r.dropLast = some route2 := by
      unfold writeAt
      rw [if_pos hfit, hroute2]
    rw [hwrite]
    show mergeGo rs route2 (i + r.dropLast.length) = _
    rw [ih route2 (i + r.dropLast.length)
      (fun q hq => h3 q (List.mem_cons_of_mem _ hq)) hbound2]
    have htake2 : route2.take (i + r.dropLast.length) = route.take i ++ r.dropLast := by
      rw [hroute2]
      exact List.take_left' hpre
    have hdrop2 : route2.drop (i + r.dropLast.length) = route.drop (i + r.dropLast.length) := by
      rw [hroute2]
      exact List.drop_left' hpre
    have hdrop3 : route2.drop ((i + r.dropLast.length) + (rs.map (fun r => r.length - 1)).sum)
        = route.drop (i + ((r :: rs).map (fun r => r.length - 1)).sum) := by
      rw [← List.drop_drop, hdrop2, List.drop_drop, hsum, hdl]
      congr 1
      omega
    rw [htake2, hdrop3]
    simp [List.append_assoc]

theorem merge_subroutes_eq (subs : List (List ℤ)) (L : ℕ)
    (h3 : ∀ r ∈ subs, 2 < r.length)
    (hL : ((subs.map (fun r => r.length - 1)).sum) ≤ L) :
    merge_subroutes subs L =
      some ((subs.map List.dropLast).flatten
        ++ List.replicate (L - (subs.map (fun r => r.length - 1)).sum) 0) := by
  unfold merge_subroutes
  rw [mergeGo_eq subs _ 0 h3 (by simpa using hL)]
  simp [List.drop_replicate]

/-- `merge_subroutes` ignores vestigial subroutes (length ≤ 2). -/
theorem mergeGo_skip : ∀ (subs : List (List ℤ)) (route : List ℤ) (i : ℕ),
    mergeGo subs route i = mergeGo (subs.filter (fun r => 2 < r.length)) route i := by
  intro subs
  induction subs with
  | nil => intro route i; simp
  | cons r rs ih =>
    intro route i
    rw [List.filter_cons]
    by_cases hr : 2 < r.length
    · rw [if_pos (by simpa using hr)]
      simp only [mergeGo]
      rw [if_pos hr, if_pos hr]
      cases hw : writeAt route i r.dropLast with
      | none => rfl
      | some route2 => exact ih route2 (i + r.dropLast.length)
    · rw [if_neg (by simpa using hr)]
      simp only [mergeGo]
      rw [if_neg hr]
      exact ih route i

theorem mem_le_getLastD (rest : List ℕ) : ∀ (j m : ℕ),
    (j :: rest).Pairwise (· < ·) → m ∈ j :: rest → m ≤ rest.getLastD j := by
  induction rest with
  | nil =>
    intro j m _ hm
    simp at hm
    simp [hm]
  | cons b t ih =>
    intro j m hp hm
    rw [List.getLastD_cons]
    rcases List.mem_cons.mp hm with hm | hm
    · subst hm
      have hjb : m < b := (List.pairwise_cons.mp hp).1 b (List.mem_cons_self b t)
      exact le_trans (le_of_lt hjb) (le_getLastD t b hp.of_cons)
    · exact ih b m hp.of_cons hm

/-- `get_subroutes` with the default `end_with_zero := true`. -/
theorem get_subroutes_true (path : List ℤ) :
    get_subroutes path =
      (((zeroPositions path).zip (zeroPositions path).tail).filter
        (fun p => 1 < p.2 - p.1)).map (fun p => seg path p.1 (p.2 + 1)) := by
  unfold get_subroutes
  simp

/-- Every emitted subroute is the inclusive slice `path[i:j+1]` for a
consecutive pair of depot positions with gap larger than one. -/
theorem mem_get_subroutes {path r : List ℤ} (hr : r ∈ get_subroutes path) :
    ∃ i j : ℕ, i < j ∧ 1 < j - i ∧ j < path.length ∧
      path.getD i 1 = 0 ∧ path.getD j 1 = 0 ∧ r = seg path i (j + 1) := by
  rw [get_subroutes_true] at hr
  rcases List.mem_map.mp hr with ⟨p, hpmem, hpr⟩
  obtain ⟨a, b⟩ := p
  have hgap : 1 < b - a := by
    have := List.of_mem_filter hpmem
    simpa using this
  have hzip := (List.mem_filter.mp hpmem).1
  have hmem1 : a ∈ zeroPositions path := (List.of_mem_zip hzip).1
  have hmem2 : b ∈ zeroPositions path :=
    List.mem_of_mem_tail (List.of_mem_zip hzip).2
  have h1 := mem_zeroPositions.mp hmem1
  have h2 := mem_zeroPositions.mp hmem2
  exact ⟨a, b, by omega, hgap, h2.1, h1.2, h2.2, hpr.symm⟩

/-- Every emitted subroute has length at least 3. -/
theorem get_subroutes_length {path r : List ℤ} (hr : r ∈ get_subroutes path) :
    2 < r.length := by
  rcases mem_get_subroutes hr with ⟨i, j, hij, hgap, hjlen, _, _, hrseg⟩
  rw [hrseg, seg_length path (by omega) (by omega)]
  omega

/-- Bound for the total length written by merge: the selected gaps telescope
below the span of the position list. -/
theorem sum_pairs_le (path : List ℤ) (zs : List ℕ) : ∀ (i : ℕ),
    (i :: zs).Pairwise (· < ·) →
    (∀ k ∈ i :: zs, k < path.length) →
    ((((i :: zs).zip zs).filter (fun p => 1 < p.2 - p.1)).map
        (fun p => (seg path p.1 (p.2 + 1)).length - 1)).sum ≤ zs.getLastD i - i := by
  induction zs with
  | nil =>
    intro i _ _
    simp [List.zip_nil_right]
  | cons j rest ih =>
    intro i hp hmem
    have hij : i < j := (List.pairwise_cons.mp hp).1 j (List.mem_cons_self j rest)
    have hjlen : j < path.length := hmem j (List.mem_cons_of_mem _ (List.mem_cons_self _ _))
    have hp2 : (j :: rest).Pairwise (· < ·) := hp.of_cons
    have hmem2 : ∀ k ∈ j :: rest, k < path.length :=
      fun k hk => hmem k (List.mem_cons_of_mem _ hk)
    have hjL : j ≤ rest.getLastD j := le_getLastD rest j hp2
    have htail := ih j hp2 hmem2
    rw [List.getLastD_cons]
    rw [List.zip_cons_cons, List.filter_cons]
    by_cases hgap : 1 < j - i
    · rw [if_pos (by simpa using hgap), List.map_cons, List.sum_cons]
      have hhead : (seg path i (j + 1)).length - 1 = j - i := by
        rw [seg_length path (by omega) (by omega)]
        omega
      rw [hhead]
      omega
    · rw [if_neg (by simpa using hgap)]
      omega

/-- C3: for a depot-bounded tour, merging its decomposition into a row of the
tour's length succeeds, and the result carries exactly the non-depot entries
of the tour, in order. -/
theorem merge_decompose_roundtrip (tour : List ℤ) (h0 : tour.head? = some 0)
    (hl : tour.getLast? = some 0) (hs : get_subroutes tour ≠ []) :
    Option.map (List.filter (fun x => x != 0))
      (merge_subroutes (get_subroutes tour) tour.length)
      = some (tour.filter (fun x => x != 0)) := by
  cases tour with
  | nil => simp at h0
  | cons a t =>
    have ha : a = 0 := by simpa using h0
    subst ha
    set path : List ℤ := (0 : ℤ) :: t with hpath
    set u : List ℕ := (zeroPositions t).map Nat.succ with hu
    have hzs : zeroPositions path = 0 :: u := by
      rw [hpath, zeroPositions_cons]
      simp [hu]
    have hne : path ≠ [] := by simp [hpath]
    have hlenpos : 0 < path.length := by simp [hpath]
    have hpw : ((0 : ℕ) :: u).Pairwise (· < ·) := by
      rw [← hzs]
      exact zeroPositions_pairwise _
    have hmem : ∀ k ∈ (0 : ℕ) :: u, k < path.length ∧ path.getD k 1 = 0 := by
      intro k hk
      rw [← hzs] at hk
      exact mem_zeroPositions.mp hk
    have hlastval : path.getLast hne = 0 := by
      rw [List.getLast?_eq_getLast path hne] at hl
      exact (Option.some.injEq _ _).mp hl
    have hlast0 : path.getD (path.length - 1) 1 = 0 := by
      rw [List.getD_eq_getElem _ 1 (by omega), ← List.getLast_eq_getElem _ hne, hlastval]
    have hlastmem : (path.length - 1) ∈ (0 : ℕ) :: u := by
      rw [← hzs]
      exact mem_zeroPositions.mpr ⟨by omega, hlast0⟩
    have hgetlast : u.getLastD 0 = path.length - 1 := by
      apply le_antisymm
      · exact getLastD_le u 0 _ (fun k hk => by have := (hmem k hk).1; omega)
      · exact mem_le_getLastD u 0 _ hpw hlastmem
    have h3 : ∀ r ∈ get_subroutes path, 2 < r.length :=
      fun r hr => get_subroutes_length hr
    have hsum : ((get_subroutes path).map (fun r => r.length - 1)).sum ≤ path.length := by
      rw [get_subroutes_true, hzs, List.tail_cons, List.map_map]
      have hb := sum_pairs_le path u 0 hpw (fun k hk => (hmem k hk).1)
      have hcomp : ((fun (r : List ℤ) => r.length - 1) ∘
          (fun p : ℕ × ℕ => seg path p.1 (p.2 + 1)))
          = (fun p : ℕ × ℕ => (seg path p.1 (p.2 + 1)).length - 1) := rfl
      rw [hcomp]
      omega
    rw [merge_subroutes_eq _ _ h3 hsum, Option.map_some']
    congr 1
    rw [List.filter_append, List.filter_replicate]
    have hz : (((0 : ℤ) != 0) = true) = False := by simp
    rw [if_neg (by simp), List.append_nil]
    rw [List.filter_flatten, get_subroutes_true, hzs, List.tail_cons, List.map_map,
      List.map_map]
    have hcomp2 : (((List.filter (fun x => x != 0)) ∘ List.dropLast) ∘
        (fun p : ℕ × ℕ => seg path p.1 (p.2 + 1)))
        = (fun p : ℕ × ℕ => ((seg path p.1 (p.2 + 1)).dropLast).filter (fun x => x != 0)) := rfl
    rw [hcomp2, flatten_filter_pairs path u 0 hpw hmem, hgetlast, seg_zero]
    conv_rhs => rw [← List.dropLast_append_getLast hne]
    rw [List.filter_append, hlastval, List.dropLast_eq_take]
    simp

theorem seg_cons_succ (a : ℤ) (l : List ℤ) (i j : ℕ) :
    seg (a :: l) (i + 1) (j + 1) = seg l i j := by
  unfold seg
  rw [List.drop_succ_cons, Nat.succ_sub_succ]

/-- A leading pair of consecutive depots contributes no subroute. -/
theorem get_subroutes_cons_cons (t : List ℤ) :
    get_subroutes ((0 : ℤ) :: 0 :: t) = get_subroutes ((0 : ℤ) :: t) := by
  rw [get_subroutes_true, get_subroutes_true]
  set v : List ℕ := (zeroPositions t).map Nat.succ with hv
  have hz1 : zeroPositions ((0 : ℤ) :: t) = 0 :: v := by
    rw [zeroPositions_cons]
    simp [hv]
  have hz2 : zeroPositions ((0 : ℤ) :: 0 :: t) = 0 :: ((0 : ℕ) :: v).map Nat.succ := by
    rw [zeroPositions_cons, hz1]
    simp
  rw [hz1, hz2, List.tail_cons, List.tail_cons]
  have hA : ((0 : ℕ) :: v).map Nat.succ = Nat.succ 0 :: v.map Nat.succ := by
    rw [List.map_cons]
  rw [hA, List.zip_cons_cons, List.filter_cons, if_neg (by simp)]
  rw [← hA, List.zip_map, List.filter_map, List.map_map]
  have hpred : ((fun p : ℕ × ℕ => decide (1 < p.2 - p.1)) ∘ Prod.map Nat.succ Nat.succ)
      = (fun p : ℕ × ℕ => decide (1 < p.2 - p.1)) := by
    funext p
    obtain ⟨i, j⟩ := p
    simp [Nat.succ_sub_succ]
  rw [hpred]
  apply List.map_congr_left
  intro p _
  obtain ⟨i, j⟩ := p
  show seg ((0 : ℤ) :: 0 :: t) (i + 1) ((j + 1) + 1) = seg ((0 : ℤ) :: t) i (j + 1)
  exact seg_cons_succ 0 (0 :: t) i (j + 1)

theorem zeroPositions_nonzero_append (mid : List ℤ) (h : ∀ x ∈ mid, x ≠ 0) :
    zeroPositions (mid ++ [(0 : ℤ)]) = [mid.length] := by
  induction mid with
  | nil => decide
  | cons a mid ih =>
    have ha : a ≠ 0 := h a (List.mem_cons_self _ _)
    rw [List.cons_append, zeroPositions_cons, if_neg ha,
      ih (fun x hx => h x (List.mem_cons_of_mem _ hx))]
    simp

/-- A tour visiting every node with a single vehicle decomposes into exactly
one subroute, the whole tour. -/
theorem get_subroutes_single_vehicle (mid : List ℤ) (hne : mid ≠ [])
    (h : ∀ x ∈ mid, x ≠ 0) :
    get_subroutes ((0 : ℤ) :: (mid ++ [0])) = [(0 : ℤ) :: (mid ++ [0])] := by
  rw [get_subroutes_true]
  have hz : zeroPositions ((0 : ℤ) :: (mid ++ [0])) = 0 :: [mid.length + 1] := by
    rw [zeroPositions_cons, zeroPositions_nonzero_append mid h]
    simp
  rw [hz, List.tail_cons, List.zip_cons_cons, List.zip_nil_right, List.filter_cons,
    if_pos (by simp [List.length_pos.mpr hne])]
  rw [List.filter_nil, List.map_cons, List.map_nil]
  have hlen : ((0 : ℤ) :: (mid ++ [0])).length = mid.length + 2 := by
    simp
  rw [seg_zero]
  rw [show mid.length + 1 + 1 = mid.length + 2 from rfl, ← hlen, List.take_length]

/-- `data['demands'] = demands * 1000` in `swapstar`. -/
def swapstar_scaled_demands (demands : List ℚ) : List ℚ :=
  demands.map (fun d => d * 1000)

/-- `data['vehicle_capacity'] = 1000.001` in `swapstar`: a fixed constant,
independent of the instance. -/
def swapstar_vehicle_capacity : ℚ := 1000.001

/-! ### The solver gateway (`Solver.local_search` / `swapstar`) -/

/-- The message of the `ValueError` raised on a non-zero depot index. -/
def depotErrorMsg : String := "In HGS, the depot location must be 0."

/-- The `NameError` escaping `Solver.local_search` when the native call or
`read_routes` raised: the swallowed exception leaves `result` unbound, so the
final `return result` itself raises. -/
def unboundResultMsg : String := "name result is not defined"

/-- The observable exit state of one `Solver.local_search` call: whether the
request artifact `route-<callid>` and the response artifact
`swapstar-result-<callid>` still exist, and whether the native solver was
invoked at all. -/
structure GatewayExit where
  requestPresent : Bool
  responsePresent : Bool
  invoked : Bool

/-- `Solver.local_search(data, routes, count)` as a function of the
environment's behaviour.  The depot check happens before the request artifact
is written and before the native call.  `solveRaises` tells whether the native
call raises; `responseWritten` whether the external solver produced the
response artifact; `decodeOk` whether `read_routes` succeeds on it; `decoded`
is the decoded route list.  The `try/except Exception: pass/else/finally`
block swallows any failure, removes the response artifact only in the
success (`else`) branch, removes the request artifact in `finally` on every
path that wrote it, and then evaluates `return result`, which raises when
`result` was never bound. -/
def solver_local_search (depot : ℤ) (routes : List (List ℤ)) (solveRaises : Bool)
    (responseWritten : Bool) (decodeOk : Bool) (decoded : List (List ℤ)) :
    Except String (List (List ℤ)) × GatewayExit :=
  if depot ≠ 0 then
    (Except.error depotErrorMsg, ⟨false, false, false⟩)
  else
    if solveRaises then
      (Except.error unboundResultMsg, ⟨false, responseWritten, true⟩)
    else if responseWritten && decodeOk then
      (Except.ok decoded, ⟨false, false, true⟩)
    else
      (Except.error unboundResultMsg, ⟨false, responseWritten, true⟩)

/-- `swapstar(demands, matrix, positions, routes, count)`: calls
`Solver.local_search` with depot 0 and returns the unchanged input routes if
anything in the call raised. -/
def swapstar (routes : List (List ℤ)) (solveRaises responseWritten decodeOk : Bool)
    (decoded : List (List ℤ)) : List (List ℤ) :=
  match (solver_local_search 0 routes solveRaises responseWritten decodeOk decoded).1 with
  | Except.ok r => r
  | Except.error _ => routes

/-! ### Trim lemmas -/

theorem trim_eq_some {m m' : List (List ℤ)} (h : trim m = some m') :
    ∃ p : ℕ, m' = m.map (fun row => (row.drop 1).take p) := by
  unfold trim at h
  by_cases he : (nonzeroColIndices m).isEmpty
  · rw [if_pos he] at h
    exact absurd h (by simp)
  · rw [if_neg he] at h
    exact ⟨(nonzeroColIndices m).foldl max 0, (Option.some.injEq _ _).mp h.symm⟩

theorem write_routes_go_getElem : ∀ (routes : List (List ℤ)) (n k : ℕ),
    (write_routes_go n routes)[k]? = (routes[k]?).map (fun r =>
      routeLabel ++ toString (n + k) ++ colonSpace ++
        String.intercalate sepSpace ((r.filter (fun x => 0 < x)).map toString)) := by
  intro routes
  induction routes with
  | nil => intro n k; simp [write_routes_go]
  | cons r rs ih =>
    intro n k
    cases k with
    | zero => simp [write_routes_go]
    | succ k =>
      rw [write_routes_go, List.getElem?_cons_succ, List.getElem?_cons_succ, ih (n + 1) k]
      have harith : n + 1 + k = n + (k + 1) := by omega
      rw [harith]

/-! ### The claims -/

/-- C1, counterexample: the demand scaling behaves as claimed, but the
capacity handed to the solver is the fixed constant 1000.001, so for the
instance with original capacity 10 it is not `1000 × 10 + ε` for any
non-negative ε. -/
theorem claim1_counterexample :
    swapstar_scaled_demands [0, 4, 6] = [0, 4000, 6000] ∧
    ¬ ∃ ε : ℚ, 0 ≤ ε ∧ swapstar_vehicle_capacity = 1000 * 10 + ε := by
  constructor
  · unfold swapstar_scaled_demands
    norm_num
  · rintro ⟨ε, hε, h⟩
    unfold swapstar_vehicle_capacity at h
    norm_num at h
    linarith

/-- C1, amended: demand is multiplied by the fixed integer factor 1000, and
the vehicle capacity is the fixed constant `1000.001 = 1000 × 1 + 1/1000`
(the scaled form of a unit capacity plus a small ε), independent of the
instance's capacity; every demand list summing to at most the unit capacity
stays feasible after scaling. -/
theorem claim1_amended_scaling :
    swapstar_scaled_demands [0, 4, 6] = [0, 4000, 6000] ∧
    swapstar_vehicle_capacity = 1000 * 1 + 1 / 1000 ∧
    (∀ d : List ℚ, d.sum ≤ 1 →
      (swapstar_scaled_demands d).sum ≤ swapstar_vehicle_capacity) := by
  refine ⟨?_, ?_, ?_⟩
  · unfold swapstar_scaled_demands
    norm_num
  · unfold swapstar_vehicle_capacity
    norm_num
  · have hsum : ∀ e : List ℚ, (e.map (fun x => x * 1000)).sum = e.sum * 1000 := by
      intro e
      induction e with
      | nil => simp
      | cons a t iht =>
        simp only [List.map_cons, List.sum_cons, iht]
        ring
    intro d hd
    unfold swapstar_scaled_demands swapstar_vehicle_capacity
    rw [hsum d]
    norm_num
    linarith

/-- C1, amended, witness at the concrete demand list `[0, 1/2, 1/2]`. -/
theorem claim1_amended_scaling_witness :
    ([(0 : ℚ), 1/2, 1/2].sum ≤ 1) ∧
    (swapstar_scaled_demands [0, 1/2, 1/2]).sum ≤ swapstar_vehicle_capacity :=
  ⟨by norm_num, claim1_amended_scaling.2.2 [0, 1/2, 1/2] (by norm_num)⟩

/-- C2, counterexample: the trim step is not idempotent — applied to the
matrix it produced from `[[0,3,1,0,2,0,0,0]]` it removes one more column. -/
theorem claim2_counterexample :
    trim [[0, 3, 1, 0, 2, 0, 0, 0]] = some [[3, 1, 0, 2]] ∧
    trim [[3, 1, 0, 2]] = some [[1, 0, 2]] ∧
    ([[1, 0, 2]] : List (List ℤ)) ≠ [[3, 1, 0, 2]] := by
  decide

/-- C2, amended: the batch trim step (slice every row to `[1, max_pos]` with
the trim point determined jointly across the batch) strips the all-zero
columns exactly once; it is not idempotent: whenever it maps a matrix to a
result containing a non-empty row, applying it again changes the result,
shortening every non-empty row. -/
theorem claim2_amended_trim_not_idempotent (m m' m'' : List (List ℤ))
    (h1 : trim m = some m') (h2 : trim m' = some m'')
    (h3 : ∃ row ∈ m', row ≠ []) : m'' ≠ m' := by
  rcases trim_eq_some h2 with ⟨p, hp⟩
  rcases h3 with ⟨row0, hrow0, hrow0ne⟩
  intro heq
  rw [heq] at hp
  rcases List.mem_iff_getElem.mp hrow0 with ⟨i, hi, hgeti⟩
  have hmap := congrArg (fun l => l[i]?) hp
  simp only [List.getElem?_map] at hmap
  rw [List.getElem?_eq_getElem hi, hgeti] at hmap
  have hrow_eq : row0 = (row0.drop 1).take p := by
    exact (Option.some.injEq _ _).mp hmap
  have hlen := congrArg List.length hrow_eq
  simp only [List.length_take, List.length_drop] at hlen
  have hpos : 0 < row0.length := List.length_pos.mpr hrow0ne
  omega

/-- C2, amended, witness: the concrete one-row batch. -/
theorem claim2_amended_trim_not_idempotent_witness :
    ([[1, 0, 2]] : List (List ℤ)) ≠ [[3, 1, 0, 2]] :=
  claim2_amended_trim_not_idempotent [[0, 3, 1, 0, 2, 0, 0, 0]] [[3, 1, 0, 2]] [[1, 0, 2]]
    (by decide) (by decide) ⟨[3, 1, 0, 2], by decide, by decide⟩

/-- C3, witness: the round trip at the tour `[0,3,1,0,2,0]`. -/
theorem merge_decompose_roundtrip_witness :
    Option.map (List.filter (fun x => x != 0))
      (merge_subroutes (get_subroutes [0, 3, 1, 0, 2, 0]) 6)
      = some (([0, 3, 1, 0, 2, 0] : List ℤ).filter (fun x => x != 0)) :=
  merge_decompose_roundtrip [0, 3, 1, 0, 2, 0] (by decide) (by decide) (by decide)

/-- Two strictly sorted lists of naturals with the same members are equal. -/
theorem sorted_mem_unique : ∀ (l₁ l₂ : List ℕ), l₁.Pairwise (· < ·) →
    l₂.Pairwise (· < ·) → (∀ k, k ∈ l₁ ↔ k ∈ l₂) → l₁ = l₂ := by
  intro l₁
  induction l₁ with
  | nil =>
    intro l₂ _ _ h
    cases l₂ with
    | nil => rfl
    | cons b s =>
      exact absurd ((h b).mpr (List.mem_cons_self _ _)) (List.not_mem_nil b)
  | cons a t ih =>
    intro l₂ h₁ h₂ h
    cases l₂ with
    | nil => exact absurd ((h a).mp (List.mem_cons_self _ _)) (List.not_mem_nil a)
    | cons b s =>
      have hab : a = b := by
        have ha2 : a ∈ b :: s := (h a).mp (List.mem_cons_self _ _)
        have hb1 : b ∈ a :: t := (h b).mpr (List.mem_cons_self _ _)
        rcases List.mem_cons.mp ha2 with h' | has
        · exact h'
        · rcases List.mem_cons.mp hb1 with h'' | hbt
          · exact h''.symm
          · have hba := (List.pairwise_cons.mp h₁).1 b hbt
            have hab2 := (List.pairwise_cons.mp h₂).1 a has
            omega
      subst hab
      have htail : ∀ k, k ∈ t ↔ k ∈ s := by
        intro k
        constructor
        · intro hk
          have hak : a < k := (List.pairwise_cons.mp h₁).1 k hk
          rcases List.mem_cons.mp ((h k).mp (List.mem_cons_of_mem _ hk)) with h' | h'
          · omega
          · exact h'
        · intro hk
          have hak : a < k := (List.pairwise_cons.mp h₂).1 k hk
          rcases List.mem_cons.mp ((h k).mpr (List.mem_cons_of_mem _ hk)) with h' | h'
          · omega
          · exact h'
      rw [ih s (List.Pairwise.of_cons h₁) (List.Pairwise.of_cons h₂) htail]

/-- C4: complete characterization of decomposition.  For any strictly
increasing list `dp` holding exactly the depot positions of the tour,
`get_subroutes` returns, in left-to-right order, exactly one subroute per
consecutive pair `(i, j)` of `dp` with `j - i > 1` — the inclusive slice
`path[i:j+1]` — while consecutive pairs with `j - i ≤ 1` contribute no
subroute; and a tour visiting every node with one vehicle yields exactly one
subroute, the whole tour. -/
theorem claim4_decompose_pairs :
    (∀ (path : List ℤ) (dp : List ℕ),
      dp.Pairwise (· < ·) →
      (∀ k ∈ dp, k < path.length) →
      (∀ k, k < path.length → (k ∈ dp ↔ path.getD k 1 = 0)) →
      get_subroutes path =
        ((dp.zip dp.tail).filter (fun p => 1 < p.2 - p.1)).map
          (fun p => seg path p.1 (p.2 + 1))) ∧
    (∀ mid : List ℤ, mid ≠ [] → (∀ x ∈ mid, x ≠ 0) →
      get_subroutes ((0 : ℤ) :: (mid ++ [0])) = [(0 : ℤ) :: (mid ++ [0])]) := by
  constructor
  · intro path dp hsort hbound hmem
    have hiff : ∀ k, k ∈ dp ↔ k ∈ zeroPositions path := by
      intro k
      rw [mem_zeroPositions]
      constructor
      · intro hk
        exact ⟨hbound k hk, (hmem k (hbound k hk)).mp hk⟩
      · rintro ⟨h1, h2⟩
        exact (hmem k h1).mpr h2
    have hdp : dp = zeroPositions path :=
      sorted_mem_unique dp (zeroPositions path) hsort (zeroPositions_pairwise path) hiff
    rw [hdp]
    exact get_subroutes_true path
  · exact get_subroutes_single_vehicle

/-- C4, witness: the two-vehicle tour `[0,3,1,0,2,0]` with its depot-position
list `[0,3,5]`, and the single-vehicle tour `[0,3,1,0]`. -/
theorem claim4_decompose_pairs_witness :
    get_subroutes [0, 3, 1, 0, 2, 0] =
      ((([0, 3, 5] : List ℕ).zip ([0, 3, 5] : List ℕ).tail).filter
        (fun p => 1 < p.2 - p.1)).map
        (fun p => seg [0, 3, 1, 0, 2, 0] p.1 (p.2 + 1)) ∧
    get_subroutes [0, 3, 1, 0] = [[0, 3, 1, 0]] :=
  ⟨claim4_decompose_pairs.1 [0, 3, 1, 0, 2, 0] [0, 3, 5] (by decide) (by decide)
      (by decide),
    claim4_decompose_pairs.2 [3, 1] (by decide) (by decide)⟩

/-- C5: merge writes the non-vestigial subroutes (length > 2), stripped of
their trailing depot, contiguously into a zero-filled row of the target
length, skipping subroutes of length ≤ 2; in particular the tour
`[0,3,1,0,2,0]` decomposes into `[0,3,1,0]` and `[0,2,0]`, and merging those
with target length 10 yields `[0,3,1,0,2,0,0,0,0,0]`. -/
theorem claim5_merge_spec :
    (∀ (subs : List (List ℤ)) (L : ℕ),
      (((subs.filter (fun r => 2 < r.length)).map (fun r => r.length - 1)).sum ≤ L) →
      merge_subroutes subs L =
        some (((subs.filter (fun r => 2 < r.length)).map List.dropLast).flatten
          ++ List.replicate
              (L - ((subs.filter (fun r => 2 < r.length)).map (fun r => r.length - 1)).sum)
              0)) ∧
    get_subroutes [0, 3, 1, 0, 2, 0] = [[0, 3, 1, 0], [0, 2, 0]] ∧
    merge_subroutes [[0, 3, 1, 0], [0, 2, 0]] 10 = some [0, 3, 1, 0, 2, 0, 0, 0, 0, 0] := by
  refine ⟨?_, by decide, by decide⟩
  intro subs L hL
  unfold merge_subroutes
  rw [mergeGo_skip]
  have h3 : ∀ r ∈ subs.filter (fun r => 2 < r.length), 2 < r.length := by
    intro r hr
    have := List.of_mem_filter hr
    simpa using this
  rw [mergeGo_eq _ _ 0 h3 (by simpa using hL)]
  simp [List.drop_replicate]

/-- C5, witness at the concrete subroute collection of the scenario. -/
theorem claim5_merge_spec_witness :
    ((([[0, 3, 1, 0], [0, 2, 0]] : List (List ℤ)).filter
        (fun r => 2 < r.length)).map (fun r => r.length - 1)).sum ≤ 10 ∧
    merge_subroutes [[0, 3, 1, 0], [0, 2, 0]] 10 =
      some (((([[0, 3, 1, 0], [0, 2, 0]] : List (List ℤ)).filter
          (fun r => 2 < r.length)).map List.dropLast).flatten
        ++ List.replicate
            (10 - ((([[0, 3, 1, 0], [0, 2, 0]] : List (List ℤ)).filter
                (fun r => 2 < r.length)).map (fun r => r.length - 1)).sum)
            0) :=
  ⟨by decide, claim5_merge_spec.1 [[0, 3, 1, 0], [0, 2, 0]] 10 (by decide)⟩

/-- C6: if the solver invocation or the response decoding fails, `swapstar`
returns the original routes unchanged (no exception reaches the caller), so
the batch row merged from its result equals the merge of the original
decomposed subroutes. -/
theorem claim6_fallback (tour : List ℤ) (L : ℕ) (sR rW dOk : Bool)
    (dec : List (List ℤ))
    (hfail : sR = true ∨ rW = false ∨ dOk = false) :
    swapstar (get_subroutes tour) sR rW dOk dec = get_subroutes tour ∧
    merge_subroutes (swapstar (get_subroutes tour) sR rW dOk dec) L
      = merge_subroutes (get_subroutes tour) L := by
  have h1 : swapstar (get_subroutes tour) sR rW dOk dec = get_subroutes tour := by
    cases sR <;> cases rW <;> cases dOk <;>
      simp_all [swapstar, solver_local_search]
  exact ⟨h1, by rw [h1]⟩

/-- C6, witness: a failing invocation on the scenario tour. -/
theorem claim6_fallback_witness :
    swapstar (get_subroutes [0, 3, 1, 0, 2, 0]) true false false [] =
      get_subroutes [0, 3, 1, 0, 2, 0] ∧
    merge_subroutes (swapstar (get_subroutes [0, 3, 1, 0, 2, 0]) true false false []) 10
      = merge_subroutes (get_subroutes [0, 3, 1, 0, 2, 0]) 10 :=
  claim6_fallback [0, 3, 1, 0, 2, 0] 10 true false false [] (Or.inl rfl)

/-- C7: the request artifact is absent on every exit path; the response
artifact is removed when the call succeeds, and on a failed call (with depot
0) it is left exactly as the external solver wrote it. -/
theorem claim7_cleanup (depot : ℤ) (routes : List (List ℤ)) (sR rW dOk : Bool)
    (dec : List (List ℤ)) :
    (solver_local_search depot routes sR rW dOk dec).2.requestPresent = false ∧
    (∀ res, (solver_local_search depot routes sR rW dOk dec).1 = Except.ok res →
      (solver_local_search depot routes sR rW dOk dec).2.responsePresent = false) ∧
    (depot = 0 → ∀ e, (solver_local_search depot routes sR rW dOk dec).1 = Except.error e →
      (solver_local_search depot routes sR rW dOk dec).2.responsePresent = rW) := by
  by_cases hd : depot = 0 <;>
    cases sR <;> cases rW <;> cases dOk <;>
      simp_all [solver_local_search]

/-- C7, witness: a successful call with depot 0. -/
theorem claim7_cleanup_witness :
    (solver_local_search 0 [] false true true []).2.requestPresent = false ∧
    (solver_local_search 0 [] false true true []).2.responsePresent = false :=
  ⟨(claim7_cleanup 0 [] false true true []).1,
    (claim7_cleanup 0 [] false true true []).2.1 [] rfl⟩

/-- C8: the k-th written line (1-indexed) is the route label, the route
number and the space-joined node tokens of the subroute with the depot
markers at its two ends omitted. -/
theorem claim8_request_encoding (routes : List (List ℤ)) (k : ℕ)
    (r interior : List ℤ) (hk : routes[k]? = some r)
    (hr : r = 0 :: (interior ++ [0])) (hpos : ∀ x ∈ interior, 0 < x) :
    (write_routes routes)[k]? =
      some (routeLabel ++ toString (k + 1) ++ colonSpace ++
        String.intercalate sepSpace (interior.map toString)) := by
  unfold write_routes
  rw [write_routes_go_getElem routes 1 k, hk, Option.map_some']
  have hfilter : r.filter (fun x => 0 < x) = interior := by
    subst hr
    rw [List.filter_cons, if_neg (by simp), List.filter_append]
    have h2 : interior.filter (fun x => decide (0 < x)) = interior :=
      List.filter_eq_self.mpr (fun a ha => by simpa using hpos a ha)
    rw [h2]
    simp
  rw [hfilter, Nat.add_comm 1 k]

/-- C8, witness: the first line for the scenario's subroute collection. -/
theorem claim8_request_encoding_witness :
    (write_routes [[0, 3, 1, 0], [0, 2, 0]])[0]? =
      some (routeLabel ++ toString (0 + 1) ++ colonSpace ++
        String.intercalate sepSpace (([3, 1] : List ℤ).map toString)) :=
  claim8_request_encoding [[0, 3, 1, 0], [0, 2, 0]] 0 [0, 3, 1, 0] [3, 1]
    (by decide) (by decide) (by decide)

/-- C9: a non-zero depot index makes `Solver.local_search` raise the
configuration error at call entry, before the request artifact is written and
before any native invocation. -/
theorem claim9_depot_validation (depot : ℤ) (routes : List (List ℤ))
    (sR rW dOk : Bool) (dec : List (List ℤ)) (hd : depot ≠ 0) :
    (solver_local_search depot routes sR rW dOk dec).1 = Except.error depotErrorMsg ∧
    (solver_local_search depot routes sR rW dOk dec).2.invoked = false ∧
    (solver_local_search depot routes sR rW dOk dec).2.requestPresent = false := by
  unfold solver_local_search
  rw [if_pos hd]
  exact ⟨rfl, rfl, rfl⟩

/-- C9, witness at depot index 1. -/
theorem claim9_depot_validation_witness :
    (solver_local_search 1 [] false false false []).1 = Except.error depotErrorMsg ∧
    (solver_local_search 1 [] false false false []).2.invoked = false ∧
    (solver_local_search 1 [] false false false []).2.requestPresent = false :=
  claim9_depot_validation 1 [] false false false [] (by decide)

/-- C10: a batch output with no non-zero entry is outside the trim step's
domain — `np.max` of the empty index selection raises instead of returning an
all-zero result. -/
theorem claim10_trim_all_zero (m : List (List ℤ))
    (h : ∀ row ∈ m, ∀ x ∈ row, x = 0) : trim m = none := by
  have hcols : nonzeroColIndices m = [] := by
    unfold nonzeroColIndices
    rw [List.flatten_eq_nil_iff]
    intro l hl
    rcases List.mem_map.mp hl with ⟨row, hrow, hrl⟩
    subst hrl
    unfold rowNonzeroCols
    rw [List.filter_eq_nil_iff]
    intro j hj
    have hjlen : j < row.length := List.mem_range.mp hj
    have hmem : row.getD j 0 ∈ row := by
      rw [List.getD_eq_getElem _ _ hjlen]
      exact List.getElem_mem hjlen
    have h0 : row.getD j 0 = 0 := h row hrow _ hmem
    rw [h0]
    decide
  unfold trim
  rw [hcols]
  simp

/-- C10, witness: the all-zero 2×2 batch. -/
theorem claim10_trim_all_zero_witness :
    trim [[0, 0], [0, 0]] = none :=
  claim10_trim_all_zero [[0, 0], [0, 0]] (by decide)

end LocalSearch
